import Mathlib

/-!
Shallow embedding of `src/src/categorizer.py` from the `fin_track` repository.

External collaborators are modelled as abstract parameters:
* the rapidfuzz scorer `fuzz.partial_ratio` becomes an abstract score
  function `pr : String → String → ℚ` (the code only compares its results);
* the sentence-embedding model composed with `util.cos_sim` becomes an
  abstract similarity function `sim : String → String → ℚ` mapping a
  transaction text and a category description to the cosine similarity of
  their embeddings (the code only compares and argmaxes over these values).

Everything else — registry construction, the keyword index, fuzzy lookup
dispatch, the two-stage batch orchestration, thresholding and the merge back
into input order — is translated directly from the source.
-/

namespace FinTrack

/-- `CategoryData` dataclass (categorizer.py, lines 13-19).  The
`description_embedding` field is derived data handled by the abstract model,
so it is not carried here. -/
structure CategoryData where
  name : String
  description : String
  keywords : List String
  category_type : String
deriving Repr, DecidableEq

/-- One raw configuration record: a Python dict value
`{description, keywords, category_type}` whose fields may be absent
(`data.get(key, default)` in the source). -/
structure CatDef where
  description : Option String
  keywords : Option (List String)
  category_type : Option String
deriving Repr, DecidableEq

/-- `load_categories` (categorizer.py, lines 22-46): iterate the income
mapping then the expense mapping, appending one `CategoryData` per entry,
with `data.get` defaults for missing fields.  Python dicts iterate in
insertion order, so each mapping is modelled as an association list. -/
def load_categories (income_categories expense_categories : List (String × CatDef)) :
    List CategoryData :=
  let c1 := income_categories.foldl
    (fun acc nd => acc ++
      [{ name := nd.1
         description := nd.2.description.getD ""
         keywords := nd.2.keywords.getD []
         category_type := nd.2.category_type.getD "income" : CategoryData }]) []
  expense_categories.foldl
    (fun acc nd => acc ++
      [{ name := nd.1
         description := nd.2.description.getD ""
         keywords := nd.2.keywords.getD []
         category_type := nd.2.category_type.getD "expense" : CategoryData }]) c1

/-- First-match association-list lookup; models reading a Python dict in
which later insertions were put in front (see `buildKeywordMaps`). -/
def lookupAssoc : List (String × String) → String → Option String
  | [], _ => none
  | (k, v) :: rest, q => if k = q then some v else lookupAssoc rest q

/-- The flat sequence of keyword registrations performed by the constructor
loop (categorizer.py, lines 79-83): for each category in order, for each of
its keywords in order, the pair (lower-cased keyword, category name). -/
def keywordRegs (categories : List CategoryData) : List (String × String) :=
  categories.flatMap (fun cat => cat.keywords.map (fun kw => (kw.toLower, cat.name)))

/-- The constructor's keyword loop (categorizer.py, lines 76-83): builds
`keyword_to_category` (a dict, modelled as an association list where a new
insertion goes in front so that lookup sees the last writer — exactly the
dict's last-writer-wins update) and `all_keywords` (a flat ordered list of
every lower-cased keyword, duplicates kept). -/
def buildKeywordMaps (categories : List CategoryData) :
    List (String × String) × List String :=
  categories.foldl
    (fun acc cat => cat.keywords.foldl
      (fun acc2 kw => ((kw.toLower, cat.name) :: acc2.1, acc2.2 ++ [kw.toLower]))
      acc)
    ([], [])

/-- The state of a constructed `SmartCategorizer` (categorizer.py, lines
49-88).  The embedding model itself and `category_embeddings` live in the
abstract similarity parameter. -/
structure SmartCategorizer where
  categories : List CategoryData
  category_names : List String
  category_descriptions : List String
  keyword_to_category : List (String × String)
  all_keywords : List String
deriving Repr

/-- The field assignments of `SmartCategorizer.__init__` once the
empty-registry check has passed (categorizer.py, lines 69-88). -/
def SmartCategorizer.build (categories : List CategoryData) : SmartCategorizer :=
  { categories := categories
    category_names := categories.map (fun cat => cat.name)
    category_descriptions := categories.map (fun cat => cat.description)
    keyword_to_category := (buildKeywordMaps categories).1
    all_keywords := (buildKeywordMaps categories).2 }

/-- `SmartCategorizer.__init__` (categorizer.py, lines 50-88): raising
`ValueError` on an empty category list is modelled with `Except.error`; on a
non-empty list the constructed object is returned. -/
def SmartCategorizer.mk? (categories : List CategoryData) :
    Except String SmartCategorizer :=
  if categories.isEmpty then
    Except.error "No categories provided to SmartCategorizer!"
  else
    Except.ok (SmartCategorizer.build categories)

/-- The best (keyword, score) pair over a list of choices with the FIRST
maximal choice winning — the tie behaviour of `rapidfuzz.process.extractOne`:
a later choice replaces the current best only on a strictly greater score. -/
def bestMatch (pr : String → String → ℚ) (q : String) :
    List String → Option (String × ℚ)
  | [] => none
  | c :: rest =>
    match bestMatch pr q rest with
    | none => some (c, pr q c)
    | some (k, b) => if b > pr q c then some (k, b) else some (c, pr q c)

/-- `rapidfuzz.process.extractOne` with `score_cutoff`: the best-scoring
choice when its score reaches the cutoff, and `none` otherwise (scores below
the cutoff are filtered out). -/
def extractOne (pr : String → String → ℚ) (q : String) (choices : List String)
    (cutoff : ℚ) : Option (String × ℚ) :=
  match bestMatch pr q choices with
  | none => none
  | some (k, s) => if s ≥ cutoff then some (k, s) else none

/-- `SmartCategorizer.find_fuzzy_match` (categorizer.py, lines 90-110):
empty keyword universe short-circuits to `none`; otherwise the query is
lower-cased, `extractOne` is run over `all_keywords` with the threshold as
cutoff, and on a hit the matched keyword is resolved through
`keyword_to_category`.  (The dict access cannot fail: every member of
`all_keywords` is a key of the index — proved below.) -/
def find_fuzzy_match (pr : String → String → ℚ) (C : SmartCategorizer)
    (description : String) (threshold : ℚ) : Option String :=
  if C.all_keywords.isEmpty then none
  else
    let cleaned_description := description.toLower
    match extractOne pr cleaned_description C.all_keywords threshold with
    | some r => lookupAssoc C.keyword_to_category r.1
    | none => none

/-- First argmax over a list of scores, as `torch.argmax` computes it on the
cosine-score row: the index and value of the first maximal element. -/
def firstArgmax : List ℚ → Option (Nat × ℚ)
  | [] => none
  | s :: rest =>
    match firstArgmax rest with
    | none => some (0, s)
    | some (j, b) => if b > s then some (j + 1, b) else some (0, s)

/-- The per-text body of the model-fallback loop (categorizer.py, lines
148-156): take the argmax over the cosine scores of the text against every
category description, return the category name when the best score strictly
exceeds the threshold, else the sentinel `"Unknown"`. -/
def semanticAssign (sim : String → String → ℚ) (C : SmartCategorizer)
    (d : String) (threshold : ℚ) : String :=
  let scores := C.category_descriptions.map (sim d)
  match firstArgmax scores with
  | none => "Unknown"
  | some r => if r.2 > threshold then C.category_names.getD r.1 "" else "Unknown"

/-- Python truthiness of `fuzzy_cat : str | None` as tested by
`if fuzzy_cat:` (categorizer.py, line 135): `None` AND the empty string
are falsy, so a fuzzy hit whose owning category is named `""` does not
count as resolved. -/
def truthy : Option String → Bool
  | none => false
  | some s => s != ""

/-- Phase 1 of `predict_batch` (categorizer.py, lines 125-139): walk the
cleaned descriptions with their positions; `if fuzzy_cat:` (truthiness, not
mere presence) records a hit into the results slot, anything falsy goes
into `remaining_indices` / `remaining_descriptions` (kept as pairs, in
input order).  `i` is the position of the first element. -/
def fuzzyPhase (pr : String → String → ℚ) (C : SmartCategorizer) (ft : ℚ) :
    Nat → List String → List (Option String) × List (Nat × String)
  | _, [] => ([], [])
  | i, d :: ds =>
    let rest := fuzzyPhase pr C ft (i + 1) ds
    let fuzzy_cat := find_fuzzy_match pr C d ft
    if truthy fuzzy_cat then (fuzzy_cat :: rest.1, rest.2)
    else (none :: rest.1, (i, d) :: rest.2)

/-- Phase 2 of `predict_batch` (categorizer.py, lines 142-156): for each
remaining (position, text) pair, write the semantic assignment for that text
into the results slot at that position. -/
def applySemantic (sim : String → String → ℚ) (C : SmartCategorizer)
    (threshold : ℚ) (res : List (Option String)) (rem : List (Nat × String)) :
    List (Option String) :=
  rem.foldl (fun r p => r.set p.1 (some (semanticAssign sim C p.2 threshold))) res

/-- `SmartCategorizer.predict_batch` (categorizer.py, lines 112-158): empty
input returns `[]`; otherwise descriptions are stripped, the fuzzy phase
fills what it can, and — only when some text remains — the semantic phase
fills the rest.  A slot still `none` would be an unassigned position; the
theorems below show none survives. -/
def predict_batch (pr sim : String → String → ℚ) (C : SmartCategorizer)
    (descriptions : List String) (threshold ft : ℚ) : List (Option String) :=
  if descriptions.isEmpty then []
  else
    let cleaned := descriptions.map String.trim
    let p := fuzzyPhase pr C ft 0 cleaned
    if p.2.isEmpty then p.1
    else applySemantic sim C threshold p.1 p.2

/-- The value `predict_batch` ends up assigning to one input description:
the fuzzy category when the matcher's result is truthy (`if fuzzy_cat:`) on
the stripped text, otherwise the semantic assignment for the stripped text.
(Derived from the source; the batch function is proved pointwise equal to
it below.) -/
def predictOne (pr sim : String → String → ℚ) (C : SmartCategorizer)
    (threshold ft : ℚ) (d : String) : Option String :=
  let fuzzy_cat := find_fuzzy_match pr C d.trim ft
  if truthy fuzzy_cat then fuzzy_cat
  else some (semanticAssign sim C d.trim threshold)

/-- One row of the transaction dataframe handed to the categorizer
(columns per spec §6); `description` and `note` may be missing (NaN),
modelled as `Option`.  The numeric amount is kept abstract through its
string rendering parameter. -/
structure TxRow where
  date : String
  amount : ℚ
  description : Option String
  note : Option String
  hash_id : String
deriving Repr, DecidableEq

/-- `SmartCategorizer.categorize_transactions` (categorizer.py, lines
167-187): empty frame gets an empty category column; otherwise the search
string of each row is `description.fillna("") + " " + note.fillna("") +
" amount=" + str(amount)` and the category column is `predict_batch` of
those strings at the default thresholds (0.25, 90.0).  Adding the column is
modelled by pairing each unchanged row with its category value. -/
def categorize_transactions (amtStr : ℚ → String) (pr sim : String → String → ℚ)
    (C : SmartCategorizer) (df : List TxRow) : List (TxRow × Option String) :=
  if df.isEmpty then []
  else
    let search_strings := df.map (fun r =>
      (r.description.getD "") ++ " " ++ (r.note.getD "") ++ " amount=" ++ amtStr r.amount)
    df.zip (predict_batch pr sim C search_strings (1 / 4) 90)

/-! ### Characterization of the keyword index construction -/

theorem keywordMaps_inner (name : String) (kws : List String)
    (m : List (String × String)) (l : List String) :
    kws.foldl (fun acc2 kw => ((kw.toLower, name) :: acc2.1, acc2.2 ++ [kw.toLower])) (m, l)
      = ((kws.map (fun kw => (kw.toLower, name))).reverse ++ m,
         l ++ kws.map (fun kw => kw.toLower)) := by
  induction kws generalizing m l with
  | nil => simp
  | cons kw kws ih =>
    simp only [List.foldl_cons, List.map_cons, List.reverse_cons, ih]
    simp [List.append_assoc]

theorem keywordMaps_go (cats : List CategoryData)
    (m : List (String × String)) (l : List String) :
    cats.foldl (fun acc cat => cat.keywords.foldl
        (fun acc2 kw => ((kw.toLower, cat.name) :: acc2.1, acc2.2 ++ [kw.toLower])) acc)
        (m, l)
      = ((keywordRegs cats).reverse ++ m, l ++ (keywordRegs cats).map Prod.fst) := by
  induction cats generalizing m l with
  | nil => simp [keywordRegs]
  | cons cat cats ih =>
    simp only [List.foldl_cons, keywordMaps_inner, ih, keywordRegs, List.flatMap_cons]
    rw [Prod.mk.injEq]
    refine ⟨?_, ?_⟩
    · simp [List.reverse_append, List.append_assoc]
    · simp [List.map_append, List.map_map, Function.comp, List.append_assoc]

theorem buildKeywordMaps_fst (cats : List CategoryData) :
    (buildKeywordMaps cats).1 = (keywordRegs cats).reverse := by
  have h := keywordMaps_go cats [] []
  simp only [buildKeywordMaps, h, List.append_nil, List.nil_append]

theorem buildKeywordMaps_snd (cats : List CategoryData) :
    (buildKeywordMaps cats).2 = (keywordRegs cats).map Prod.fst := by
  have h := keywordMaps_go cats [] []
  simp only [buildKeywordMaps, h, List.append_nil, List.nil_append]

theorem mem_keywordRegs {cats : List CategoryData} {k v : String}
    (h : (k, v) ∈ keywordRegs cats) :
    ∃ cat ∈ cats, v = cat.name ∧ ∃ kw ∈ cat.keywords, k = kw.toLower := by
  simp only [keywordRegs, List.mem_flatMap, List.mem_map] at h
  obtain ⟨cat, hcat, kw, hkw, heq⟩ := h
  exact ⟨cat, hcat, (Prod.mk.injEq _ _ _ _ ▸ heq).2.symm,
    kw, hkw, (Prod.mk.injEq _ _ _ _ ▸ heq).1.symm⟩

/-! ### Association-list lookup lemmas -/

theorem lookupAssoc_mem {l : List (String × String)} {q v : String}
    (h : lookupAssoc l q = some v) : (q, v) ∈ l := by
  induction l with
  | nil => simp [lookupAssoc] at h
  | cons p rest ih =>
    obtain ⟨k, w⟩ := p
    by_cases hk : k = q
    · subst hk
      simp [lookupAssoc] at h
      subst h
      exact List.mem_cons_self _ _
    · simp only [lookupAssoc, if_neg hk] at h
      exact List.mem_cons_of_mem _ (ih h)

theorem lookupAssoc_isSome {l : List (String × String)} {q : String}
    (h : q ∈ l.map Prod.fst) : ∃ v, lookupAssoc l q = some v := by
  induction l with
  | nil => simp at h
  | cons p rest ih =>
    by_cases hk : p.1 = q
    · exact ⟨p.2, by obtain ⟨a, b⟩ := p; simp only at hk; simp [lookupAssoc, hk]⟩
    · have hq : q ∈ rest.map Prod.fst := by
        simp only [List.map_cons, List.mem_cons] at h
        exact h.resolve_left (fun hq => hk hq.symm)
      obtain ⟨v, hv⟩ := ih hq
      refine ⟨v, ?_⟩
      obtain ⟨a, b⟩ := p
      simp only at hk
      simp [lookupAssoc, hk, hv]

theorem lookupAssoc_not_mem {l : List (String × String)} {q : String}
    (h : q ∉ l.map Prod.fst) : lookupAssoc l q = none := by
  induction l with
  | nil => rfl
  | cons p rest ih =>
    obtain ⟨k, w⟩ := p
    simp only [List.map_cons, List.mem_cons, not_or] at h
    by_cases hk : k = q
    · exact absurd hk.symm h.1
    · simp only [lookupAssoc, if_neg hk]
      exact ih h.2

theorem lookupAssoc_append (l1 l2 : List (String × String)) (q : String) :
    lookupAssoc (l1 ++ l2) q = (lookupAssoc l1 q).or (lookupAssoc l2 q) := by
  induction l1 with
  | nil => simp [lookupAssoc]
  | cons p rest ih =>
    obtain ⟨k, w⟩ := p
    by_cases hk : k = q <;> simp [lookupAssoc, hk, ih]

theorem lookupAssoc_const {l : List (String × String)} {q v : String}
    (hall : ∀ p ∈ l, p.2 = v) (h : q ∈ l.map Prod.fst) :
    lookupAssoc l q = some v := by
  obtain ⟨w, hw⟩ := lookupAssoc_isSome h
  have := hall _ (lookupAssoc_mem hw)
  simp only at this
  rw [hw, this]

/-! ### `bestMatch` and `firstArgmax` -/

theorem bestMatch_eq_none {pr : String → String → ℚ} {q : String}
    {l : List String} : bestMatch pr q l = none ↔ l = [] := by
  cases l with
  | nil => simp [bestMatch]
  | cons c rest =>
    simp only [bestMatch]
    cases bestMatch pr q rest with
    | none => simp
    | some r =>
      obtain ⟨k, b⟩ := r
      by_cases hb : b > pr q c <;> simp [hb]

theorem bestMatch_spec {pr : String → String → ℚ} {q : String} :
    ∀ (l : List String) (k : String) (s : ℚ), bestMatch pr q l = some (k, s) →
      k ∈ l ∧ s = pr q k ∧ ∀ c ∈ l, pr q c ≤ s := by
  intro l
  induction l with
  | nil => intro k s h; simp [bestMatch] at h
  | cons c rest ih =>
    intro k s h
    cases hrest : bestMatch pr q rest with
    | none =>
      have hnil : rest = [] := bestMatch_eq_none.mp hrest
      subst hnil
      simp only [bestMatch, Option.some.injEq, Prod.mk.injEq] at h
      obtain ⟨hk, hs⟩ := h
      refine ⟨by simp [hk], by rw [← hk, ← hs], ?_⟩
      intro c' hc'
      simp only [List.mem_singleton] at hc'
      subst hc'
      exact le_of_eq hs
    | some r =>
      obtain ⟨k', b⟩ := r
      obtain ⟨hmem, hval, hmax⟩ := ih k' b hrest
      simp only [bestMatch, hrest] at h
      by_cases hb : b > pr q c
      · rw [if_pos hb] at h
        simp only [Option.some.injEq, Prod.mk.injEq] at h
        obtain ⟨hk, hs⟩ := h
        subst hk; subst hs
        refine ⟨List.mem_cons_of_mem _ hmem, hval, ?_⟩
        intro x hx
        rcases List.mem_cons.mp hx with hx | hx
        · subst hx; exact le_of_lt hb
        · exact hmax x hx
      · rw [if_neg hb] at h
        simp only [Option.some.injEq, Prod.mk.injEq] at h
        obtain ⟨hk, hs⟩ := h
        subst hk; subst hs
        refine ⟨List.mem_cons_self _ _, rfl, ?_⟩
        intro x hx
        rcases List.mem_cons.mp hx with hx | hx
        · subst hx; exact le_refl _
        · exact le_trans (hmax x hx) (not_lt.mp hb)

theorem firstArgmax_eq_none {l : List ℚ} : firstArgmax l = none ↔ l = [] := by
  cases l with
  | nil => simp [firstArgmax]
  | cons s rest =>
    simp only [firstArgmax]
    cases firstArgmax rest with
    | none => simp
    | some r =>
      obtain ⟨j, b⟩ := r
      by_cases hb : b > s <;> simp [hb]

theorem firstArgmax_spec :
    ∀ (l : List ℚ) (j : Nat) (b : ℚ), firstArgmax l = some (j, b) →
      l[j]? = some b ∧ ∀ (k : Nat) (c : ℚ), l[k]? = some c → c ≤ b := by
  intro l
  induction l with
  | nil => intro j b h; simp [firstArgmax] at h
  | cons s rest ih =>
    intro j b h
    cases hrest : firstArgmax rest with
    | none =>
      have hnil : rest = [] := firstArgmax_eq_none.mp hrest
      subst hnil
      simp only [firstArgmax, Option.some.injEq, Prod.mk.injEq] at h
      obtain ⟨hj, hb⟩ := h
      subst hj; subst hb
      refine ⟨by simp, ?_⟩
      intro k c hc
      cases k with
      | zero =>
        simp only [List.getElem?_cons_zero, Option.some.injEq] at hc
        exact le_of_eq hc.symm
      | succ k => simp at hc
    | some r =>
      obtain ⟨j', b'⟩ := r
      obtain ⟨hval, hmax⟩ := ih j' b' hrest
      simp only [firstArgmax, hrest] at h
      by_cases hb : b' > s
      · rw [if_pos hb] at h
        simp only [Option.some.injEq, Prod.mk.injEq] at h
        obtain ⟨hj, hbb⟩ := h
        subst hj; subst hbb
        refine ⟨by simpa using hval, ?_⟩
        intro k c hc
        cases k with
        | zero =>
          simp only [List.getElem?_cons_zero, Option.some.injEq] at hc
          subst hc; exact le_of_lt hb
        | succ k =>
          simp only [List.getElem?_cons_succ] at hc
          exact hmax k c hc
      · rw [if_neg hb] at h
        simp only [Option.some.injEq, Prod.mk.injEq] at h
        obtain ⟨hj, hbb⟩ := h
        subst hj; subst hbb
        refine ⟨by simp, ?_⟩
        intro k c hc
        cases k with
        | zero =>
          simp only [List.getElem?_cons_zero, Option.some.injEq] at hc
          subst hc; exact le_refl _
        | succ k =>
          simp only [List.getElem?_cons_succ] at hc
          exact le_trans (hmax k c hc) (not_lt.mp hb)

/-! ### The two phases of `predict_batch` -/

theorem truthy_isSome {x : Option String} (h : truthy x = true) : x.isSome := by
  cases x with
  | none => simp [truthy] at h
  | some s => rfl

theorem truthy_some {s : String} : truthy (some s) = true ↔ s ≠ "" := by
  simp [truthy]

theorem fuzzyPhase_fst_length (pr : String → String → ℚ) (C : SmartCategorizer)
    (ft : ℚ) : ∀ (i : Nat) (ds : List String),
    (fuzzyPhase pr C ft i ds).1.length = ds.length := by
  intro i ds
  induction ds generalizing i with
  | nil => rfl
  | cons d ds ih =>
    cases ht : truthy (find_fuzzy_match pr C d ft) with
    | true => simp [fuzzyPhase, ht, ih]
    | false => simp [fuzzyPhase, ht, ih]

theorem fuzzyPhase_fst_getElem? (pr : String → String → ℚ) (C : SmartCategorizer)
    (ft : ℚ) : ∀ (i j : Nat) (ds : List String),
    (fuzzyPhase pr C ft i ds).1[j]? =
      (ds[j]?).map (fun d =>
        if truthy (find_fuzzy_match pr C d ft)
          then find_fuzzy_match pr C d ft else none) := by
  intro i j ds
  induction ds generalizing i j with
  | nil => simp [fuzzyPhase]
  | cons d ds ih =>
    cases ht : truthy (find_fuzzy_match pr C d ft) with
    | true =>
      cases j with
      | zero => simp [fuzzyPhase, ht]
      | succ j => simp [fuzzyPhase, ht, ih]
    | false =>
      cases j with
      | zero => simp [fuzzyPhase, ht]
      | succ j => simp [fuzzyPhase, ht, ih]

theorem fuzzyPhase_snd_mem (pr : String → String → ℚ) (C : SmartCategorizer)
    (ft : ℚ) : ∀ (i : Nat) (ds : List String) (p : Nat × String),
    p ∈ (fuzzyPhase pr C ft i ds).2 →
    ∃ j : Nat, ds[j]? = some p.2 ∧ p.1 = i + j ∧
      truthy (find_fuzzy_match pr C p.2 ft) = false := by
  intro i ds
  induction ds generalizing i with
  | nil => intro p hp; simp [fuzzyPhase] at hp
  | cons d ds ih =>
    intro p hp
    cases ht : truthy (find_fuzzy_match pr C d ft) with
    | true =>
      simp only [fuzzyPhase, ht, if_true] at hp
      obtain ⟨j, h1, h2, h3⟩ := ih (i + 1) p hp
      exact ⟨j + 1, by simpa using h1, by omega, h3⟩
    | false =>
      simp only [fuzzyPhase, ht, if_false, Bool.false_eq_true] at hp
      rcases List.mem_cons.mp hp with hp | hp
      · subst hp
        exact ⟨0, by simp, by simp, ht⟩
      · obtain ⟨j, h1, h2, h3⟩ := ih (i + 1) p hp
        exact ⟨j + 1, by simpa using h1, by omega, h3⟩

theorem fuzzyPhase_snd_pairwise (pr : String → String → ℚ) (C : SmartCategorizer)
    (ft : ℚ) : ∀ (i : Nat) (ds : List String),
    List.Pairwise (fun p q => p.1 < q.1) (fuzzyPhase pr C ft i ds).2 := by
  intro i ds
  induction ds generalizing i with
  | nil => simp [fuzzyPhase]
  | cons d ds ih =>
    cases ht : truthy (find_fuzzy_match pr C d ft) with
    | true =>
      simp only [fuzzyPhase, ht, if_true]
      exact ih (i + 1)
    | false =>
      simp only [fuzzyPhase, ht, if_false, Bool.false_eq_true]
      refine List.Pairwise.cons ?_ (ih (i + 1))
      intro q hq
      obtain ⟨j, _, h2, _⟩ := fuzzyPhase_snd_mem pr C ft (i + 1) ds q hq
      simp only
      omega

theorem fuzzyPhase_snd_complete (pr : String → String → ℚ) (C : SmartCategorizer)
    (ft : ℚ) : ∀ (i j : Nat) (ds : List String) (d : String),
    ds[j]? = some d → truthy (find_fuzzy_match pr C d ft) = false →
    (i + j, d) ∈ (fuzzyPhase pr C ft i ds).2 := by
  intro i j ds
  induction ds generalizing i j with
  | nil => intro d hd; simp at hd
  | cons d0 ds ih =>
    intro d hd hf
    cases j with
    | zero =>
      simp only [List.getElem?_cons_zero, Option.some.injEq] at hd
      subst hd
      simp only [fuzzyPhase, hf, if_false, Bool.false_eq_true, Nat.add_zero]
      exact List.mem_cons_self _ _
    | succ j =>
      simp only [List.getElem?_cons_succ] at hd
      have hmem := ih (i + 1) j d hd hf
      have harith : i + (j + 1) = i + 1 + j := by omega
      rw [harith]
      cases ht0 : truthy (find_fuzzy_match pr C d0 ft) with
      | true => simpa [fuzzyPhase, ht0] using hmem
      | false =>
        simp only [fuzzyPhase, ht0, if_false, Bool.false_eq_true]
        exact List.mem_cons_of_mem _ hmem

theorem applySemantic_length (sim : String → String → ℚ) (C : SmartCategorizer)
    (th : ℚ) : ∀ (rem : List (Nat × String)) (res : List (Option String)),
    (applySemantic sim C th res rem).length = res.length := by
  intro rem
  induction rem with
  | nil => intro res; rfl
  | cons p rem ih =>
    intro res
    simp only [applySemantic, List.foldl_cons] at ih ⊢
    rw [ih]
    exact List.length_set ..

theorem applySemantic_getElem?_not_mem (sim : String → String → ℚ)
    (C : SmartCategorizer) (th : ℚ) :
    ∀ (rem : List (Nat × String)) (res : List (Option String)) (k : Nat),
    k ∉ rem.map Prod.fst →
    (applySemantic sim C th res rem)[k]? = res[k]? := by
  intro rem
  induction rem with
  | nil => intro res k _; rfl
  | cons p rem ih =>
    intro res k hk
    simp only [List.map_cons, List.mem_cons, not_or] at hk
    simp only [applySemantic, List.foldl_cons] at ih ⊢
    rw [ih _ k hk.2]
    exact List.getElem?_set_ne (fun h => hk.1 h.symm)

theorem applySemantic_getElem?_mem (sim : String → String → ℚ)
    (C : SmartCategorizer) (th : ℚ) :
    ∀ (rem : List (Nat × String)) (res : List (Option String)) (k : Nat) (d : String),
    (rem.map Prod.fst).Nodup → (k, d) ∈ rem → k < res.length →
    (applySemantic sim C th res rem)[k]? =
      some (some (semanticAssign sim C d th)) := by
  intro rem
  induction rem with
  | nil => intro res k d _ hmem; simp at hmem
  | cons p rem ih =>
    intro res k d hnd hmem hk
    simp only [List.map_cons, List.nodup_cons] at hnd
    simp only [applySemantic, List.foldl_cons] at ih ⊢
    rcases List.mem_cons.mp hmem with hp | hp
    · have hkp : p.1 = k := by rw [← hp]
      have hnot : k ∉ rem.map Prod.fst := hkp ▸ hnd.1
      have := applySemantic_getElem?_not_mem sim C th rem
        (res.set p.1 (some (semanticAssign sim C p.2 th))) k hnot
      simp only [applySemantic] at this
      rw [this, ← hp]
      exact List.getElem?_set_eq_of_lt _ (by simpa using hk)
    · have hkmem : k ∈ rem.map Prod.fst :=
        List.mem_map.mpr ⟨(k, d), hp, rfl⟩
      have hne : p.1 ≠ k := fun h => hnd.1 (h ▸ hkmem)
      exact ih _ k d hnd.2 hp (by simpa using hk)

/-- Pointwise characterization of `predict_batch`: position `i` of the
output is exactly `predictOne` of position `i` of the input (and positions
past the end do not exist). -/
theorem predict_batch_getElem? (pr sim : String → String → ℚ)
    (C : SmartCategorizer) (descs : List String) (th ft : ℚ) (i : Nat) :
    (predict_batch pr sim C descs th ft)[i]? =
      (descs[i]?).map (predictOne pr sim C th ft) := by
  by_cases hemp : descs.isEmpty
  · have hnil : descs = [] := List.isEmpty_iff.mp hemp
    subst hnil
    simp [predict_batch]
  · simp only [predict_batch, if_neg hemp]
    by_cases hi : i < descs.length
    · have hd : descs[i]? = some descs[i] := List.getElem?_eq_getElem hi
      have hcl : (descs.map String.trim)[i]? = some (descs[i]).trim := by
        simp [List.getElem?_map, hd]
      cases ht : truthy (find_fuzzy_match pr C (descs[i]).trim ft) with
      | true =>
        have hnotmem :
            i ∉ (fuzzyPhase pr C ft 0 (descs.map String.trim)).2.map Prod.fst := by
          intro hmem
          obtain ⟨q, hq, hq1⟩ := List.mem_map.mp hmem
          obtain ⟨j, hj1, hj2, hj3⟩ :=
            fuzzyPhase_snd_mem pr C ft 0 (descs.map String.trim) q hq
          have hji : j = i := by omega
          rw [hji, hcl] at hj1
          have h22 : q.2 = (descs[i]).trim := by simpa using hj1.symm
          rw [h22, ht] at hj3
          exact Bool.noConfusion hj3
        have hval :
            (fuzzyPhase pr C ft 0 (descs.map String.trim)).1[i]?
              = some (find_fuzzy_match pr C (descs[i]).trim ft) := by
          rw [fuzzyPhase_fst_getElem?, hcl]
          simp [ht]
        by_cases hrem : (fuzzyPhase pr C ft 0 (descs.map String.trim)).2.isEmpty
        · rw [if_pos hrem, hval, hd]
          simp [predictOne, ht]
        · rw [if_neg hrem,
            applySemantic_getElem?_not_mem sim C th _ _ i hnotmem, hval, hd]
          simp [predictOne, ht]
      | false =>
        have hmem : (i, (descs[i]).trim) ∈
            (fuzzyPhase pr C ft 0 (descs.map String.trim)).2 := by
          have := fuzzyPhase_snd_complete pr C ft 0 i
            (descs.map String.trim) (descs[i]).trim hcl ht
          simpa using this
        have hrem : ¬ (fuzzyPhase pr C ft 0 (descs.map String.trim)).2.isEmpty := by
          intro hrem
          rw [List.isEmpty_iff.mp hrem] at hmem
          simp at hmem
        have hnd : ((fuzzyPhase pr C ft 0 (descs.map String.trim)).2.map Prod.fst).Nodup := by
          have hpw := fuzzyPhase_snd_pairwise pr C ft 0 (descs.map String.trim)
          exact (hpw.map Prod.fst (fun a b h => h)).imp Nat.ne_of_lt
        rw [if_neg hrem,
          applySemantic_getElem?_mem sim C th _ _ i (descs[i]).trim hnd hmem
            (by rw [fuzzyPhase_fst_length]; simpa using hi), hd]
        simp [predictOne, ht]
    · have hlen1 : (fuzzyPhase pr C ft 0 (descs.map String.trim)).1.length
          = descs.length := by
        rw [fuzzyPhase_fst_length]; simp
      have hout : (if (fuzzyPhase pr C ft 0 (descs.map String.trim)).2.isEmpty
          then (fuzzyPhase pr C ft 0 (descs.map String.trim)).1
          else applySemantic sim C th (fuzzyPhase pr C ft 0 (descs.map String.trim)).1
            (fuzzyPhase pr C ft 0 (descs.map String.trim)).2).length = descs.length := by
        by_cases hrem : (fuzzyPhase pr C ft 0 (descs.map String.trim)).2.isEmpty
        · rw [if_pos hrem]; exact hlen1
        · rw [if_neg hrem, applySemantic_length]; exact hlen1
      rw [List.getElem?_eq_none (by omega : descs.length ≤ i),
        List.getElem?_eq_none (by rw [hout]; omega)]
      rfl

/-- `predict_batch` always returns exactly one slot per input text. -/
theorem predict_batch_length (pr sim : String → String → ℚ)
    (C : SmartCategorizer) (descs : List String) (th ft : ℚ) :
    (predict_batch pr sim C descs th ft).length = descs.length := by
  by_cases hemp : descs.isEmpty
  · rw [List.isEmpty_iff.mp hemp]
    rfl
  · simp only [predict_batch, if_neg hemp]
    by_cases hrem : (fuzzyPhase pr C ft 0 (descs.map String.trim)).2.isEmpty
    · rw [if_pos hrem, fuzzyPhase_fst_length]
      simp
    · rw [if_neg hrem, applySemantic_length, fuzzyPhase_fst_length]
      simp

/-! ### Helpers connecting the built categorizer state to the registry -/

theorem extractOne_spec {pr : String → String → ℚ} {q : String}
    {choices : List String} {cutoff : ℚ} {kw : String} {s : ℚ}
    (h : extractOne pr q choices cutoff = some (kw, s)) :
    bestMatch pr q choices = some (kw, s) ∧ s ≥ cutoff := by
  cases hbm : bestMatch pr q choices with
  | none =>
    simp only [extractOne, hbm] at h
    exact Option.noConfusion h
  | some r =>
    obtain ⟨k, b⟩ := r
    simp only [extractOne, hbm] at h
    by_cases hc : b ≥ cutoff
    · rw [if_pos hc] at h
      simp only [Option.some.injEq, Prod.mk.injEq] at h
      obtain ⟨h1, h2⟩ := h
      subst h1; subst h2
      exact ⟨rfl, hc⟩
    · rw [if_neg hc] at h
      exact Option.noConfusion h

theorem build_all_keywords (cats : List CategoryData) :
    (SmartCategorizer.build cats).all_keywords = (keywordRegs cats).map Prod.fst :=
  buildKeywordMaps_snd cats

theorem build_keyword_to_category (cats : List CategoryData) :
    (SmartCategorizer.build cats).keyword_to_category = (keywordRegs cats).reverse :=
  buildKeywordMaps_fst cats

/-- Every member of `all_keywords` is a key of the index, and its value is
the name of some registered category: the Python dict access in
`find_fuzzy_match` can never raise `KeyError`. -/
theorem build_lookup_total {cats : List CategoryData} {kw : String}
    (h : kw ∈ (SmartCategorizer.build cats).all_keywords) :
    ∃ c, lookupAssoc (SmartCategorizer.build cats).keyword_to_category kw = some c ∧
      c ∈ cats.map (fun cat => cat.name) := by
  rw [build_all_keywords] at h
  rw [build_keyword_to_category]
  have hk : kw ∈ ((keywordRegs cats).reverse).map Prod.fst := by
    rw [List.map_reverse]
    simpa using h
  obtain ⟨v, hv⟩ := lookupAssoc_isSome hk
  refine ⟨v, hv, ?_⟩
  have hmem : (kw, v) ∈ keywordRegs cats := by
    have := lookupAssoc_mem hv
    simpa using this
  obtain ⟨cat, hcat, hname, _⟩ := mem_keywordRegs hmem
  exact List.mem_map.mpr ⟨cat, hcat, hname.symm⟩

/-- A fuzzy hit always yields the name of a registered category. -/
theorem find_fuzzy_match_mem_names {pr : String → String → ℚ}
    {cats : List CategoryData} {d : String} {t : ℚ} {c : String}
    (h : find_fuzzy_match pr (SmartCategorizer.build cats) d t = some c) :
    c ∈ cats.map (fun cat => cat.name) := by
  by_cases hemp : (SmartCategorizer.build cats).all_keywords.isEmpty
  · simp only [find_fuzzy_match, if_pos hemp] at h
    exact Option.noConfusion h
  · cases he : extractOne pr d.toLower (SmartCategorizer.build cats).all_keywords t with
    | none =>
      simp only [find_fuzzy_match, if_neg hemp, he] at h
      exact Option.noConfusion h
    | some r =>
      obtain ⟨k1, s1⟩ := r
      simp only [find_fuzzy_match, if_neg hemp, he] at h
      obtain ⟨hbm, _⟩ := extractOne_spec he
      obtain ⟨hmem, _, _⟩ := bestMatch_spec _ k1 s1 hbm
      obtain ⟨v, hv, hvmem⟩ := build_lookup_total hmem
      rw [hv] at h
      simp only [Option.some.injEq] at h
      exact h ▸ hvmem

/-- The semantic fallback returns either the sentinel or a registered
category name. -/
theorem semanticAssign_mem_names (sim : String → String → ℚ)
    (cats : List CategoryData) (d : String) (th : ℚ) :
    semanticAssign sim (SmartCategorizer.build cats) d th = "Unknown" ∨
      semanticAssign sim (SmartCategorizer.build cats) d th
        ∈ cats.map (fun cat => cat.name) := by
  cases ha : firstArgmax ((SmartCategorizer.build cats).category_descriptions.map (sim d)) with
  | none =>
    left
    simp only [semanticAssign, ha]
  | some r =>
    by_cases hth : r.2 > th
    · right
      obtain ⟨hval, _⟩ := firstArgmax_spec _ r.1 r.2 ha
      have hlt : r.1 < ((SmartCategorizer.build cats).category_descriptions.map (sim d)).length := by
        by_contra hge
        rw [List.getElem?_eq_none (by omega)] at hval
        exact Option.noConfusion hval
      have hlt2 : r.1 < (SmartCategorizer.build cats).category_names.length := by
        simp only [SmartCategorizer.build, List.length_map] at hlt ⊢
        exact hlt
      have hget : (SmartCategorizer.build cats).category_names[r.1]?
          = some (SmartCategorizer.build cats).category_names[r.1] :=
        List.getElem?_eq_getElem hlt2
      have hgd : (SmartCategorizer.build cats).category_names.getD r.1 ""
          = (SmartCategorizer.build cats).category_names[r.1] := by
        simp [List.getD, hget]
      simp only [semanticAssign, ha, if_pos hth]
      rw [hgd]
      have hmemn : (SmartCategorizer.build cats).category_names[r.1]
          ∈ (SmartCategorizer.build cats).category_names :=
        List.getElem_mem hlt2
      simpa only [SmartCategorizer.build] using hmemn
    · left
      simp only [semanticAssign, ha, if_neg hth]

/-- `predictOne` never leaves a slot unassigned. -/
theorem predictOne_isSome (pr sim : String → String → ℚ) (C : SmartCategorizer)
    (th ft : ℚ) (d : String) : (predictOne pr sim C th ft d).isSome := by
  cases ht : truthy (find_fuzzy_match pr C d.trim ft) with
  | true =>
    simp only [predictOne, ht, if_true]
    exact truthy_isSome ht
  | false => simp [predictOne, ht]

/-- A text on which the fuzzy matcher's result is truthy never reaches the
semantic stage: its position is absent from `remaining_indices`. -/
theorem not_mem_remaining {pr : String → String → ℚ} {C : SmartCategorizer}
    {ft : ℚ} {descs : List String} {i : Nat} {d : String}
    (hd : descs[i]? = some d)
    (ht : truthy (find_fuzzy_match pr C d.trim ft) = true) :
    i ∉ (fuzzyPhase pr C ft 0 (descs.map String.trim)).2.map Prod.fst := by
  intro hmem
  obtain ⟨q, hq, hq1⟩ := List.mem_map.mp hmem
  obtain ⟨j, hj1, hj2, hj3⟩ :=
    fuzzyPhase_snd_mem pr C ft 0 (descs.map String.trim) q hq
  have hji : j = i := by omega
  rw [hji] at hj1
  rw [List.getElem?_map, hd] at hj1
  have h22 : q.2 = d.trim := by simpa using hj1.symm
  rw [h22, ht] at hj3
  exact Bool.noConfusion hj3

theorem zip_getElem? {α β : Type} : ∀ (l1 : List α) (l2 : List β) (i : Nat),
    (l1.zip l2)[i]? = (l1[i]?).bind (fun a => (l2[i]?).map (fun b => (a, b))) := by
  intro l1
  induction l1 with
  | nil => intro l2 i; simp
  | cons a l1 ih =>
    intro l2 i
    cases l2 with
    | nil => simp
    | cons b l2 =>
      cases i with
      | zero => simp
      | succ i => simpa using ih l2 i

/-- Pointwise characterization of `categorize_transactions`: row `i` of the
output is row `i` of the input paired with the prediction for its search
string, built exactly as `description.fillna("") + " " + note.fillna("") +
" amount=" + str(amount)`, at the default thresholds. -/
theorem categorize_transactions_getElem? (amtStr : ℚ → String)
    (pr sim : String → String → ℚ) (C : SmartCategorizer) (df : List TxRow)
    (i : Nat) :
    (categorize_transactions amtStr pr sim C df)[i]? =
      (df[i]?).map (fun r =>
        (r, predictOne pr sim C (1 / 4) 90
          ((r.description.getD "") ++ " " ++ (r.note.getD "") ++ " amount="
            ++ amtStr r.amount))) := by
  by_cases hemp : df.isEmpty
  · rw [List.isEmpty_iff.mp hemp]
    simp [categorize_transactions]
  · simp only [categorize_transactions, if_neg hemp]
    rw [zip_getElem?, predict_batch_getElem?, List.getElem?_map]
    cases hd : df[i]? with
    | none => simp
    | some r => simp

theorem foldl_append_map {α β : Type} (f : α → β) :
    ∀ (l : List α) (acc : List β),
    l.foldl (fun acc x => acc ++ [f x]) acc = acc ++ l.map f := by
  intro l
  induction l with
  | nil => intro acc; simp
  | cons x l ih =>
    intro acc
    simp only [List.foldl_cons, ih, List.map_cons]
    simp [List.append_assoc]

/-! ### The claims -/

/-- C1: for every input list of texts, `predict_batch` returns a list of
category slots of the same length, position `i` of the output being
determined by (and only by) the text at position `i` of the input; the
empty input yields the empty output. -/
theorem claim1 (pr sim : String → String → ℚ) (C : SmartCategorizer)
    (descriptions : List String) (threshold ft : ℚ) :
    (predict_batch pr sim C descriptions threshold ft).length = descriptions.length ∧
    predict_batch pr sim C ([] : List String) threshold ft = [] ∧
    ∀ i : Nat, (predict_batch pr sim C descriptions threshold ft)[i]? =
      (descriptions[i]?).map (predictOne pr sim C threshold ft) :=
  ⟨predict_batch_length pr sim C descriptions threshold ft, rfl,
    fun i => predict_batch_getElem? pr sim C descriptions threshold ft i⟩

/-- C2 (amended): if the keyword matcher finds a keyword for the stripped,
lower-cased text at position `i` (its best fuzzy score reaching the fuzzy
threshold, as `extractOne` returning a hit means), and the owning category
`c` the keyword index maps it to has a NON-EMPTY name — the `if fuzzy_cat:`
truthiness test of the source — then `predict_batch` assigns that keyword's
owning category (a registered category name) to position `i`, and position
`i` never enters the remaining set handed to the semantic stage.  (When the
owning category is named `""` the code's truthiness test routes the text to
the semantic stage instead; see the counterexample.) -/
theorem claim2 (pr sim : String → String → ℚ) (cats : List CategoryData)
    (descriptions : List String) (threshold ft : ℚ) (i : Nat) (d kw c : String)
    (s : ℚ) (hd : descriptions[i]? = some d)
    (hfind : extractOne pr d.trim.toLower
      (SmartCategorizer.build cats).all_keywords ft = some (kw, s))
    (hc : lookupAssoc (SmartCategorizer.build cats).keyword_to_category kw
      = some c)
    (hcne : c ≠ "") :
    s ≥ ft ∧
    c ∈ cats.map (fun cat => cat.name) ∧
    (predict_batch pr sim (SmartCategorizer.build cats) descriptions threshold ft)[i]?
      = some (some c) ∧
    i ∉ ((fuzzyPhase pr (SmartCategorizer.build cats) ft 0
      (descriptions.map String.trim)).2.map Prod.fst) := by
  obtain ⟨hbm, hge⟩ := extractOne_spec hfind
  obtain ⟨hkmem, hsval, hmax⟩ := bestMatch_spec _ kw s hbm
  have hne : ¬ (SmartCategorizer.build cats).all_keywords.isEmpty := by
    intro he
    rw [List.isEmpty_iff.mp he] at hkmem
    simp at hkmem
  have hff : find_fuzzy_match pr (SmartCategorizer.build cats) d.trim ft = some c := by
    simp only [find_fuzzy_match, if_neg hne, hfind]
    exact hc
  have ht : truthy (find_fuzzy_match pr (SmartCategorizer.build cats) d.trim ft)
      = true := by
    rw [hff]
    exact truthy_some.mpr hcne
  have hcmem : c ∈ cats.map (fun cat => cat.name) := by
    obtain ⟨c', hc', hcm⟩ := build_lookup_total hkmem
    have hcc : c' = c := by
      have := hc'.symm.trans hc
      simpa using this
    exact hcc ▸ hcm
  refine ⟨hge, hcmem, ?_, not_mem_remaining hd ht⟩
  rw [predict_batch_getElem?, hd]
  simp [predictOne, hff, truthy, hcne]

/-- C3: a text not resolved by the keyword stage gets the semantic verdict:
there is a position `j` whose similarity score `b` is maximal over all
category descriptions, and the assigned value is the category name at `j`
when `b` strictly exceeds the confidence threshold, and exactly `"Unknown"`
otherwise. -/
theorem claim3 (pr sim : String → String → ℚ) (cats : List CategoryData)
    (descriptions : List String) (threshold ft : ℚ) (i : Nat) (d : String)
    (hne : cats ≠ []) (hd : descriptions[i]? = some d)
    (hf : find_fuzzy_match pr (SmartCategorizer.build cats) d.trim ft = none) :
    ∃ (j : Nat) (b : ℚ),
      ((SmartCategorizer.build cats).category_descriptions.map (sim d.trim))[j]?
        = some b ∧
      (∀ (k : Nat) (c : ℚ),
        ((SmartCategorizer.build cats).category_descriptions.map (sim d.trim))[k]?
          = some c → c ≤ b) ∧
      (predict_batch pr sim (SmartCategorizer.build cats) descriptions threshold ft)[i]?
        = some (some (if b > threshold
            then (SmartCategorizer.build cats).category_names.getD j ""
            else "Unknown")) := by
  have hsne : ((SmartCategorizer.build cats).category_descriptions.map (sim d.trim))
      ≠ [] := by
    simp [SmartCategorizer.build, hne]
  cases ha : firstArgmax
      ((SmartCategorizer.build cats).category_descriptions.map (sim d.trim)) with
  | none => exact absurd (firstArgmax_eq_none.mp ha) hsne
  | some r =>
    obtain ⟨hval, hmax⟩ := firstArgmax_spec _ r.1 r.2 ha
    refine ⟨r.1, r.2, hval, hmax, ?_⟩
    rw [predict_batch_getElem?, hd]
    simp [predictOne, hf, truthy, semanticAssign, ha]

/-- C4: constructing on the empty category list yields exactly the
configuration error (and hence no categorizer object); on any non-empty
list construction succeeds with the built object. -/
theorem claim4 :
    SmartCategorizer.mk? ([] : List CategoryData)
      = Except.error "No categories provided to SmartCategorizer!" ∧
    ∀ cats : List CategoryData, cats ≠ [] →
      SmartCategorizer.mk? cats = Except.ok (SmartCategorizer.build cats) := by
  refine ⟨rfl, ?_⟩
  intro cats hne
  simp [SmartCategorizer.mk?, hne]

/-- C5: `find_fuzzy_match` on an empty keyword universe returns nothing (for
every input, without raising); otherwise, with `(kw, s)` the first-maximal
scored keyword, every stored keyword scores at most `s`, and the function
returns the owning category of `kw` exactly when `s` reaches the threshold
and nothing when it does not. -/
theorem claim5 (pr : String → String → ℚ) (cats : List CategoryData)
    (description : String) (threshold : ℚ) :
    ((SmartCategorizer.build cats).all_keywords = [] →
      find_fuzzy_match pr (SmartCategorizer.build cats) description threshold = none) ∧
    ∀ (kw : String) (s : ℚ),
      bestMatch pr description.toLower (SmartCategorizer.build cats).all_keywords
        = some (kw, s) →
      (∀ k ∈ (SmartCategorizer.build cats).all_keywords,
        pr description.toLower k ≤ s) ∧
      (s ≥ threshold → ∃ c,
        lookupAssoc (SmartCategorizer.build cats).keyword_to_category kw = some c ∧
        c ∈ cats.map (fun cat => cat.name) ∧
        find_fuzzy_match pr (SmartCategorizer.build cats) description threshold
          = some c) ∧
      (s < threshold →
        find_fuzzy_match pr (SmartCategorizer.build cats) description threshold
          = none) := by
  constructor
  · intro hkw
    simp [find_fuzzy_match, hkw]
  · intro kw s hbm
    obtain ⟨hkmem, hsval, hmax⟩ := bestMatch_spec _ kw s hbm
    have hne : ¬ (SmartCategorizer.build cats).all_keywords.isEmpty := by
      intro he
      rw [List.isEmpty_iff.mp he] at hkmem
      simp at hkmem
    refine ⟨hmax, ?_, ?_⟩
    · intro hge
      obtain ⟨c, hc, hcmem⟩ := build_lookup_total hkmem
      refine ⟨c, hc, hcmem, ?_⟩
      simp only [find_fuzzy_match, if_neg hne, extractOne, hbm, if_pos hge]
      exact hc
    · intro hlt
      simp only [find_fuzzy_match, if_neg hne, extractOne, hbm,
        if_neg (not_le.mpr hlt)]

/-- Last-writer-wins for the reversed registration list: when a block whose
entries all carry value `v` contains the key, and nothing registered after
the block carries the key, lookup resolves to `v`. -/
theorem lookupAssoc_last_block (l1 pb l2 : List (String × String)) (q v : String)
    (hpb : ∀ p ∈ pb, p.2 = v) (hq : q ∈ pb.map Prod.fst)
    (hl2 : q ∉ l2.map Prod.fst) :
    lookupAssoc ((l1 ++ pb ++ l2).reverse) q = some v := by
  rw [List.reverse_append, List.reverse_append, lookupAssoc_append,
    lookupAssoc_append]
  rw [lookupAssoc_not_mem (by rw [List.map_reverse]; simpa using hl2)]
  rw [lookupAssoc_const (l := pb.reverse)
    (fun p hp => hpb p (List.mem_reverse.mp hp))
    (by rw [List.map_reverse]; simpa using hq)]
  rfl

/-- C6: when two categories register the same (lower-cased) keyword and no
later category registers it again, the keyword index maps it to the
later-registered category, and any fuzzy hit resolving to that keyword
yields the later category's name. -/
theorem claim6 (pre mid post : List CategoryData) (A B : CategoryData)
    (kwa kwb : String) (ha : kwa ∈ A.keywords) (hb : kwb ∈ B.keywords)
    (heq : kwa.toLower = kwb.toLower)
    (hpost : ∀ D ∈ post, ∀ k ∈ D.keywords, k.toLower ≠ kwb.toLower) :
    lookupAssoc (SmartCategorizer.build
        (pre ++ A :: mid ++ B :: post)).keyword_to_category kwb.toLower
      = some B.name ∧
    ∀ (pr : String → String → ℚ) (d : String) (t s : ℚ),
      extractOne pr d.toLower
          (SmartCategorizer.build (pre ++ A :: mid ++ B :: post)).all_keywords t
        = some (kwb.toLower, s) →
      find_fuzzy_match pr (SmartCategorizer.build (pre ++ A :: mid ++ B :: post)) d t
        = some B.name := by
  have hregs : keywordRegs (pre ++ A :: mid ++ B :: post)
      = (keywordRegs pre
          ++ A.keywords.map (fun kw => (kw.toLower, A.name))
          ++ keywordRegs mid)
        ++ B.keywords.map (fun kw => (kw.toLower, B.name))
        ++ keywordRegs post := by
    simp [keywordRegs, List.flatMap_append, List.flatMap_cons, List.append_assoc]
  have hlook : lookupAssoc (SmartCategorizer.build
      (pre ++ A :: mid ++ B :: post)).keyword_to_category kwb.toLower
      = some B.name := by
    rw [build_keyword_to_category, hregs]
    refine lookupAssoc_last_block _ _ _ _ _ ?_ ?_ ?_
    · intro p hp
      obtain ⟨kw, _, hkw⟩ := List.mem_map.mp hp
      rw [← hkw]
    · exact List.mem_map.mpr ⟨(kwb.toLower, B.name),
        List.mem_map.mpr ⟨kwb, hb, rfl⟩, rfl⟩
    · intro hmem
      obtain ⟨p, hp, hp1⟩ := List.mem_map.mp hmem
      obtain ⟨D, hD, _, kw, hkw, hlow⟩ := mem_keywordRegs (p.eta ▸ hp)
      exact hpost D hD kw hkw (by rw [← hlow, hp1])
  refine ⟨hlook, ?_⟩
  intro pr d t s hone
  obtain ⟨hbm, _⟩ := extractOne_spec hone
  obtain ⟨hkmem, _, _⟩ := bestMatch_spec _ _ _ hbm
  have hne : ¬ (SmartCategorizer.build
      (pre ++ A :: mid ++ B :: post)).all_keywords.isEmpty := by
    intro he
    rw [List.isEmpty_iff.mp he] at hkmem
    simp at hkmem
  simp only [find_fuzzy_match, if_neg hne, hone]
  exact hlook

/-- C7: the registry builder emits one category per definition, income
entries first then expense entries, both in input order, with missing
fields defaulted to the empty string, the empty keyword list, and the
containing group's type; it is total. -/
theorem claim7 (income expense : List (String × CatDef)) :
    load_categories income expense
      = income.map (fun nd =>
          { name := nd.1
            description := nd.2.description.getD ""
            keywords := nd.2.keywords.getD []
            category_type := nd.2.category_type.getD "income" : CategoryData })
        ++ expense.map (fun nd =>
          { name := nd.1
            description := nd.2.description.getD ""
            keywords := nd.2.keywords.getD []
            category_type := nd.2.category_type.getD "expense" : CategoryData }) ∧
    (load_categories income expense).length = income.length + expense.length := by
  have heq : load_categories income expense
      = income.map (fun nd =>
          { name := nd.1
            description := nd.2.description.getD ""
            keywords := nd.2.keywords.getD []
            category_type := nd.2.category_type.getD "income" : CategoryData })
        ++ expense.map (fun nd =>
          { name := nd.1
            description := nd.2.description.getD ""
            keywords := nd.2.keywords.getD []
            category_type := nd.2.category_type.getD "expense" : CategoryData }) := by
    simp only [load_categories, foldl_append_map, List.nil_append]
  refine ⟨heq, ?_⟩
  rw [heq]
  simp

/-- C8: row `i` of the categorized table is row `i` of the input paired
with the prediction for the search text
`description.fillna("") + " " + note.fillna("") + " amount=" + str(amount)`
at the default thresholds; missing description or note contribute the empty
string, and the function is total (never raises). -/
theorem claim8 (amtStr : ℚ → String) (pr sim : String → String → ℚ)
    (C : SmartCategorizer) (df : List TxRow) (i : Nat) :
    (categorize_transactions amtStr pr sim C df)[i]? =
      (df[i]?).map (fun r =>
        (r, predictOne pr sim C (1 / 4) 90
          ((r.description.getD "") ++ " " ++ (r.note.getD "") ++ " amount="
            ++ amtStr r.amount))) :=
  categorize_transactions_getElem? amtStr pr sim C df i

/-- C9: `categorize_transactions` only adds the category column: the
sequence of underlying rows is unchanged (same columns, values and order),
the output has one entry per input row, and every row's category slot is
assigned. -/
theorem claim9 (amtStr : ℚ → String) (pr sim : String → String → ℚ)
    (C : SmartCategorizer) (df : List TxRow) :
    (categorize_transactions amtStr pr sim C df).map Prod.fst = df ∧
    (categorize_transactions amtStr pr sim C df).length = df.length ∧
    ∀ (i : Nat) (p : TxRow × Option String),
      (categorize_transactions amtStr pr sim C df)[i]? = some p → p.2.isSome := by
  refine ⟨?_, ?_, ?_⟩
  · by_cases hemp : df.isEmpty
    · rw [List.isEmpty_iff.mp hemp]
      rfl
    · simp only [categorize_transactions, if_neg hemp]
      apply List.map_fst_zip
      rw [predict_batch_length, List.length_map]
  · by_cases hemp : df.isEmpty
    · rw [List.isEmpty_iff.mp hemp]
      rfl
    · simp only [categorize_transactions, if_neg hemp]
      rw [List.length_zip, predict_batch_length, List.length_map]
      exact Nat.min_self _
  · intro i p hp
    rw [categorize_transactions_getElem?] at hp
    cases hd : df[i]? with
    | none => rw [hd] at hp; simp at hp
    | some r =>
      rw [hd] at hp
      have hpe : p = (r, predictOne pr sim C (1 / 4) 90
          ((r.description.getD "") ++ " " ++ (r.note.getD "") ++ " amount="
            ++ amtStr r.amount)) := by
        simpa using hp.symm
      rw [hpe]
      exact predictOne_isSome pr sim C (1 / 4) 90 _

/-- C10: every slot `predict_batch` emits is assigned (no `none`), and its
value is either the sentinel `"Unknown"` or the name of a category from the
list the categorizer was constructed with. -/
theorem claim10 (pr sim : String → String → ℚ) (cats : List CategoryData)
    (descriptions : List String) (threshold ft : ℚ) (i : Nat) (o : Option String)
    (ho : (predict_batch pr sim (SmartCategorizer.build cats) descriptions
      threshold ft)[i]? = some o) :
    ∃ c, o = some c ∧
      (c = "Unknown" ∨ c ∈ cats.map (fun cat => cat.name)) := by
  rw [predict_batch_getElem?] at ho
  cases hd : descriptions[i]? with
  | none => rw [hd] at ho; simp at ho
  | some d =>
    rw [hd] at ho
    have ho' : o = predictOne pr sim (SmartCategorizer.build cats) threshold ft d := by
      simpa using ho.symm
    cases hf : find_fuzzy_match pr (SmartCategorizer.build cats) d.trim ft with
    | some c =>
      by_cases hce : c = ""
      · refine ⟨semanticAssign sim (SmartCategorizer.build cats) d.trim threshold,
          ?_, ?_⟩
        · rw [ho']
          subst hce
          simp [predictOne, hf, truthy]
        · rcases semanticAssign_mem_names sim cats d.trim threshold with h | h
          · exact Or.inl h
          · exact Or.inr h
      · refine ⟨c, ?_, Or.inr (find_fuzzy_match_mem_names hf)⟩
        rw [ho']
        simp [predictOne, hf, truthy, hce]
    | none =>
      refine ⟨semanticAssign sim (SmartCategorizer.build cats) d.trim threshold,
        ?_, ?_⟩
      · rw [ho']
        simp [predictOne, hf, truthy]
      · rcases semanticAssign_mem_names sim cats d.trim threshold with h | h
        · exact Or.inl h
        · exact Or.inr h

/-! ### Concrete fixtures for the witnesses -/

def catFood : CategoryData :=
  { name := "Food", description := "groceries", keywords := ["rimi"],
    category_type := "expense" }

def catEarly : CategoryData :=
  { name := "Early", description := "", keywords := ["shared"],
    category_type := "income" }

def catLater : CategoryData :=
  { name := "Later", description := "", keywords := ["shared"],
    category_type := "expense" }

/-- A scorer that rates every (query, keyword) pair at 100. -/
def prHundred : String → String → ℚ := fun _ _ => 100

/-- A scorer that rates every pair at 0. -/
def prZero : String → String → ℚ := fun _ _ => 0

/-- A similarity model that rates every pair at 0. -/
def simZero : String → String → ℚ := fun _ _ => 0

/-- A fixed amount renderer. -/
def amtZero : ℚ → String := fun _ => "0"

def rowTest : TxRow :=
  { date := "2023-11-01", amount := 5, description := some "rimi",
    note := none, hash_id := "h1" }

/-- A category whose name is the empty string: its fuzzy result is falsy
under Python's `if fuzzy_cat:`. -/
def catNoName : CategoryData :=
  { name := "", description := "mystery", keywords := ["k"],
    category_type := "expense" }

/-! ### Witnesses -/

theorem claim2_witness :
    (["rimi"][0]? = some "rimi") ∧
    (extractOne prHundred "rimi".trim.toLower
      (SmartCategorizer.build [catFood]).all_keywords 90
      = some ("rimi".toLower, 100)) ∧
    (lookupAssoc (SmartCategorizer.build [catFood]).keyword_to_category
      "rimi".toLower = some "Food") ∧
    ("Food" ≠ "") ∧
    ((100 : ℚ) ≥ 90 ∧
      "Food" ∈ [catFood].map (fun cat => cat.name) ∧
      (predict_batch prHundred simZero (SmartCategorizer.build [catFood])
        ["rimi"] 2 90)[0]? = some (some "Food") ∧
      0 ∉ ((fuzzyPhase prHundred (SmartCategorizer.build [catFood]) 90 0
        (["rimi"].map String.trim)).2.map Prod.fst)) :=
  ⟨rfl,
    by simp +decide [extractOne, bestMatch, SmartCategorizer.build,
      buildKeywordMaps, catFood, prHundred],
    by simp [lookupAssoc, SmartCategorizer.build, buildKeywordMaps, catFood],
    by decide,
    claim2 prHundred simZero [catFood] ["rimi"] 2 90 0 "rimi" "rimi".toLower
      "Food" 100 rfl
      (by simp +decide [extractOne, bestMatch, SmartCategorizer.build,
        buildKeywordMaps, catFood, prHundred])
      (by simp [lookupAssoc, SmartCategorizer.build, buildKeywordMaps, catFood])
      (by decide)⟩

/-- C2 as frozen is false of the program: with a single category named `""`
owning keyword `"k"` and a scorer rating everything 100, the matcher finds
`"k"` with score 100 ≥ 90 and the index maps it to the owning category `""`,
yet `predict_batch` does NOT assign that owning category to the text — the
falsy `if fuzzy_cat:` sends position 0 to the semantic stage instead (it
appears in `remaining_indices` and receives the semantic verdict). -/
theorem claim2_counterexample :
    (extractOne prHundred "k".trim.toLower
      (SmartCategorizer.build [catNoName]).all_keywords 90
      = some ("k".toLower, 100)) ∧
    ((100 : ℚ) ≥ 90) ∧
    (lookupAssoc (SmartCategorizer.build [catNoName]).keyword_to_category
      "k".toLower = some "") ∧
    ((predict_batch prHundred simZero (SmartCategorizer.build [catNoName])
      ["k"] 2 90)[0]? ≠ some (some "")) ∧
    (0 ∈ ((fuzzyPhase prHundred (SmartCategorizer.build [catNoName]) 90 0
      (["k"].map String.trim)).2.map Prod.fst)) := by
  refine ⟨?_, by decide, ?_, ?_, ?_⟩
  · simp +decide [extractOne, bestMatch, SmartCategorizer.build,
      buildKeywordMaps, catNoName, prHundred]
  · simp [lookupAssoc, SmartCategorizer.build, buildKeywordMaps, catNoName]
  · simp +decide [predict_batch, fuzzyPhase, find_fuzzy_match, extractOne,
      bestMatch, lookupAssoc, truthy, applySemantic, semanticAssign,
      firstArgmax, SmartCategorizer.build, buildKeywordMaps, catNoName,
      prHundred, simZero]
  · simp +decide [fuzzyPhase, find_fuzzy_match, extractOne, bestMatch,
      lookupAssoc, truthy, SmartCategorizer.build, buildKeywordMaps,
      catNoName, prHundred]

theorem claim3_witness :
    (([catFood] : List CategoryData) ≠ []) ∧
    (["xyz"][0]? = some "xyz") ∧
    (find_fuzzy_match prZero (SmartCategorizer.build [catFood]) "xyz".trim 90
      = none) ∧
    ∃ (j : Nat) (b : ℚ),
      ((SmartCategorizer.build [catFood]).category_descriptions.map
        (simZero "xyz".trim))[j]? = some b ∧
      (∀ (k : Nat) (c : ℚ),
        ((SmartCategorizer.build [catFood]).category_descriptions.map
          (simZero "xyz".trim))[k]? = some c → c ≤ b) ∧
      (predict_batch prZero simZero (SmartCategorizer.build [catFood])
        ["xyz"] 2 90)[0]?
        = some (some (if b > 2
            then (SmartCategorizer.build [catFood]).category_names.getD j ""
            else "Unknown")) :=
  ⟨by simp, rfl,
    by simp +decide [find_fuzzy_match, extractOne, bestMatch,
      SmartCategorizer.build, buildKeywordMaps, catFood, prZero],
    claim3 prZero simZero [catFood] ["xyz"] 2 90 0 "xyz" (by simp) rfl
      (by simp +decide [find_fuzzy_match, extractOne, bestMatch,
        SmartCategorizer.build, buildKeywordMaps, catFood, prZero])⟩

theorem claim4_witness :
    (([catFood] : List CategoryData) ≠ []) ∧
    SmartCategorizer.mk? [catFood]
      = Except.ok (SmartCategorizer.build [catFood]) :=
  ⟨by simp, claim4.2 [catFood] (by simp)⟩

theorem claim5_witness :
    (bestMatch prHundred "RIMI".toLower
      (SmartCategorizer.build [catFood]).all_keywords
      = some ("rimi".toLower, 100)) ∧
    ((100 : ℚ) ≥ 90) ∧
    ∃ c, lookupAssoc (SmartCategorizer.build [catFood]).keyword_to_category
        "rimi".toLower = some c ∧
      c ∈ [catFood].map (fun cat => cat.name) ∧
      find_fuzzy_match prHundred (SmartCategorizer.build [catFood]) "RIMI" 90
        = some c :=
  ⟨by simp +decide [bestMatch, SmartCategorizer.build, buildKeywordMaps,
      catFood, prHundred],
    by decide,
    ((claim5 prHundred [catFood] "RIMI" 90).2 "rimi".toLower 100
      (by simp +decide [bestMatch, SmartCategorizer.build, buildKeywordMaps,
        catFood, prHundred])).2.1 (by decide)⟩

theorem claim6_witness :
    ("shared" ∈ catEarly.keywords) ∧ ("shared" ∈ catLater.keywords) ∧
    lookupAssoc (SmartCategorizer.build [catEarly, catLater]).keyword_to_category
      "shared".toLower = some "Later" :=
  ⟨by simp [catEarly], by simp [catLater],
    (claim6 [] [] [] catEarly catLater "shared" "shared" (by simp [catEarly])
      (by simp [catLater]) rfl (by simp)).1⟩

theorem claim9_witness :
    ((categorize_transactions amtZero prHundred simZero
      (SmartCategorizer.build [catFood]) [rowTest]).map Prod.fst = [rowTest]) ∧
    ((categorize_transactions amtZero prHundred simZero
      (SmartCategorizer.build [catFood]) [rowTest]).length = 1) ∧
    ((categorize_transactions amtZero prHundred simZero
      (SmartCategorizer.build [catFood]) [rowTest])[0]?
        = some (rowTest, some "Food")) ∧
    ((rowTest, (some "Food" : Option String)).2.isSome = true) :=
  ⟨(claim9 amtZero prHundred simZero (SmartCategorizer.build [catFood]) [rowTest]).1,
    (claim9 amtZero prHundred simZero (SmartCategorizer.build [catFood]) [rowTest]).2.1,
    by simp +decide [categorize_transactions, predict_batch, fuzzyPhase,
      find_fuzzy_match, extractOne, bestMatch, lookupAssoc, truthy,
      SmartCategorizer.build, buildKeywordMaps, catFood, rowTest, prHundred,
      amtZero],
    (claim9 amtZero prHundred simZero (SmartCategorizer.build [catFood])
      [rowTest]).2.2 0 (rowTest, some "Food")
      (by simp +decide [categorize_transactions, predict_batch, fuzzyPhase,
        find_fuzzy_match, extractOne, bestMatch, lookupAssoc, truthy,
        SmartCategorizer.build, buildKeywordMaps, catFood, rowTest, prHundred,
        amtZero])⟩

theorem claim10_witness :
    ((predict_batch prHundred simZero (SmartCategorizer.build [catFood])
      ["rimi"] 2 90)[0]? = some (some "Food")) ∧
    ∃ c, (some "Food" : Option String) = some c ∧
      (c = "Unknown" ∨ c ∈ [catFood].map (fun cat => cat.name)) :=
  ⟨by simp +decide [predict_batch, fuzzyPhase, find_fuzzy_match, extractOne,
      bestMatch, lookupAssoc, truthy, SmartCategorizer.build, buildKeywordMaps,
      catFood, prHundred],
    claim10 prHundred simZero [catFood] ["rimi"] 2 90 0 (some "Food")
      (by simp +decide [predict_batch, fuzzyPhase, find_fuzzy_match, extractOne,
        bestMatch, lookupAssoc, truthy, SmartCategorizer.build, buildKeywordMaps,
        catFood, prHundred])⟩

end FinTrack
